import Mathlib

/-!
Verification of the Monte-Carlo simulation in
`src/kakeguruitwin_MC/kakeguruitwin_mc.cpp` (project kakegruitwin_MC).

The program generates random strings of length 100 over the alphabet
{U, D}, locates the first occurrence of each of the 8 length-3 patterns
(function `myfind`), records per-trial expectation positions
(`montecarloImplAvg`) and pairwise win outcomes
(`montecarloImplWinningAvg`), and aggregates the trials
(`sumMontecarloAvg`, `aggregateWinningAvg`).

The embedding below translates those functions to Lean.  Strings are
`List Char`; the pseudo-random source (`myrandom::MyRand` /
`myrandom::MyRandSfmt`, constructed with bounds 1..6) is modelled as a
stream of draws together with a cursor into the stream, so that each call
to `myrand()` yields the current draw and advances the cursor.  The
`tbb::parallel_for` loops of `montecarloTBB` and `aggregateWinningAvg`
are modelled by their sequentialisations: every parallel iteration
performs commuting per-key increments, so the resulting counts are those
of the sequential fold.  `std::uint32_t` accumulation is modelled
separately (`addKey32` below) as arithmetic modulo 2^32.
-/

namespace KakeguruiMC

/-- `MCMAX`: number of Monte-Carlo trials. -/
def MCMAX : Nat := 1000000

/-- `RANDNUMTABLELEN`: length of the generated U/D string. -/
def RANDNUMTABLELEN : Nat := 100

/-- `udarray`: the 8 possible length-3 strings over {U, D}, in the
order they appear in the source. -/
def udarray : List (List Char) :=
  [['D','D','D'], ['D','D','U'], ['D','U','D'], ['D','U','U'],
   ['U','D','D'], ['U','D','U'], ['U','U','D'], ['U','U','U']]

/-- `makecombination`: the double loop over indices `i, j < 8` keeping
the pair `(udarray[i], udarray[j])` exactly when `i ≠ j`. -/
def makecombination : List (List Char × List Char) :=
  ((List.range 8).map (fun i =>
    (List.range 8).filterMap (fun j =>
      if i = j then none else some (udarray.getD i [], udarray.getD j [])))).flatten

/-- `cbarray`: the 56 ordered pairs of distinct patterns. -/
def cbarray : List (List Char × List Char) := makecombination

/-- Model of the bounded pseudo-random source: an infinite stream of
draws together with a cursor (the mutable internal state).  `myrand()`
reads the draw at the cursor and advances the cursor. -/
structure MyRand where
  draws : Nat → Nat
  state : Nat

/-- One call of `mr.myrand()`: the drawn value and the advanced source. -/
def MyRand.myrand (mr : MyRand) : Nat × MyRand :=
  (mr.draws mr.state, ⟨mr.draws, mr.state + 1⟩)

/-- The loop body of `makerandomudstr`, filling `n` remaining characters:
each character is `'U'` when the draw exceeds 3 and `'D'` otherwise. -/
def makerandomudstrAux : Nat → MyRand → List Char × MyRand
  | 0, mr => ([], mr)
  | n + 1, mr =>
      let d := mr.myrand
      let c := if d.1 > 3 then 'U' else 'D'
      let rest := makerandomudstrAux n d.2
      (c :: rest.1, rest.2)

/-- `makerandomudstr`: the random U/D string of length `RANDNUMTABLELEN`,
together with the advanced random source. -/
def makerandomudstr (mr : MyRand) : List Char × MyRand :=
  makerandomudstrAux RANDNUMTABLELEN mr

/-- Whether `pat` occurs at the head of `s` (character-wise equality). -/
def matchesAt : List Char → List Char → Bool
  | [], _ => true
  | _ :: _, [] => false
  | p :: ps, c :: cs => if p = c then matchesAt ps cs else false

/-- `udstr.find(str)`: index of the first occurrence of `pat` in `s`,
`none` when absent (`std::string::npos`). -/
def findSub (pat : List Char) : List Char → Option Nat
  | [] => if matchesAt pat [] then some 0 else none
  | c :: rest =>
      if matchesAt pat (c :: rest) then some 0
      else (findSub pat rest).map (fun n => n + 1)

/-- `myfind`: the end position `pos + 3` of the first occurrence (the
source hardcodes `+ 3`), or `RANDNUMTABLELEN` when the pattern is
absent. -/
def myfind (str udstr : List Char) : Nat :=
  match findSub str udstr with
  | some pos => pos + 3
  | none => RANDNUMTABLELEN

/-- The expectation pass over one generated string: the loop of
`montecarloImplAvg` inserting `(str, myfind(str, udstr))` for every
pattern of `udarray`. -/
def avgPass (udstr : List Char) : List (List Char × Nat) :=
  udarray.map (fun str => (str, myfind str udstr))

/-- `montecarloImplAvg`: generates a fresh string and runs the
expectation pass on it; the random source is advanced. -/
def montecarloImplAvg (mr : MyRand) : List (List Char × Nat) × MyRand :=
  let p := makerandomudstr mr
  (avgPass p.1, p.2)

/-- The win pass over one generated string: the loop of
`montecarloImplWinningAvg` inserting
`(sp, myfind(sp.first, udstr) < myfind(sp.second, udstr))` for every
pair of `cbarray`. -/
def winPass (udstr : List Char) : List ((List Char × List Char) × Bool) :=
  cbarray.map (fun sp => (sp, decide (myfind sp.1 udstr < myfind sp.2 udstr)))

/-- `montecarloImplWinningAvg`: generates a fresh string and runs the
win pass on it; the random source is advanced. -/
def montecarloImplWinningAvg (mr : MyRand) :
    List ((List Char × List Char) × Bool) × MyRand :=
  let p := makerandomudstr mr
  (winPass p.1, p.2)

/-- One iteration of the `tbb::parallel_for` body of `montecarloTBB`:
with its freshly constructed random source `mr`, the iteration first
runs `montecarloImplAvg(mr)` and then `montecarloImplWinningAvg(mr)` on
the advanced source, yielding that trial's expectation and win results. -/
def montecarloTrial (mr : MyRand) :
    List (List Char × Nat) × List ((List Char × List Char) × Bool) :=
  let a := montecarloImplAvg mr
  let w := montecarloImplWinningAvg a.2
  (a.1, w.1)

/-- Association-list update: add `v` to the value stored at key `k`,
inserting the key when absent (the `flat_map::operator[] +=` /
`concurrent_hash_map` insert-and-increment idiom of the source). -/
def addKey {K : Type} [DecidableEq K] : List (K × Nat) → K → Nat → List (K × Nat)
  | [], k, v => [(k, v)]
  | kv :: rest, k, v =>
      if kv.1 = k then (kv.1, kv.2 + v) :: rest else kv :: addKey rest k v

/-- The same update with `std::uint32_t` arithmetic: every store is
reduced modulo 2^32. -/
def addKey32 {K : Type} [DecidableEq K] : List (K × Nat) → K → Nat → List (K × Nat)
  | [], k, v => [(k, v % 4294967296)]
  | kv :: rest, k, v =>
      if kv.1 = k then (kv.1, (kv.2 + v) % 4294967296) :: rest
      else kv :: addKey32 rest k v

/-- `sumMontecarloAvg`: initialises every pattern of `udarray` to 0,
then for every trial result adds every recorded position to its
pattern's accumulator. -/
def sumMontecarloAvg (mcresultavg : List (List (List Char × Nat))) :
    List (List Char × Nat) :=
  mcresultavg.foldl
    (fun acc mcr => mcr.foldl (fun a kv => addKey a kv.1 kv.2) acc)
    (udarray.map (fun str => (str, 0)))

/-- `sumMontecarloAvg` with `std::uint32_t` accumulators. -/
def sumMontecarloAvg32 (mcresultavg : List (List (List Char × Nat))) :
    List (List Char × Nat) :=
  mcresultavg.foldl
    (fun acc mcr => mcr.foldl (fun a kv => addKey32 a kv.1 kv.2) acc)
    (udarray.map (fun str => (str, 0)))

/-- `aggregateWinningAvg` (the `tbb::concurrent_vector` overload),
sequentialised: first every pair of `cbarray` is registered with count
0, then for every trial result every pair whose recorded outcome is
`true` has its counter incremented. -/
def aggregateWinningAvg
    (mcresultwinningavg : List (List ((List Char × List Char) × Bool))) :
    List ((List Char × List Char) × Nat) :=
  mcresultwinningavg.foldl
    (fun acc mcr => mcr.foldl (fun a kv => if kv.2 then addKey a kv.1 1 else a) acc)
    (cbarray.map (fun sp => (sp, 0)))

/-- `aggregateWinningAvg` with `std::uint32_t` counters. -/
def aggregateWinningAvg32
    (mcresultwinningavg : List (List ((List Char × List Char) × Bool))) :
    List ((List Char × List Char) × Nat) :=
  mcresultwinningavg.foldl
    (fun acc mcr => mcr.foldl (fun a kv => if kv.2 then addKey32 a kv.1 1 else a) acc)
    (cbarray.map (fun sp => (sp, 0)))

/-- Value lookup in an association list, defaulting to 0 (the value a
`flat_map`/`concurrent_hash_map` holds for an absent or freshly
inserted key). -/
def glookup {K : Type} [DecidableEq K] : List (K × Nat) → K → Nat
  | [], _ => 0
  | kv :: rest, k => if kv.1 = k then kv.2 else glookup rest k

/-- Optional lookup in an association list (`flat_map::find`). -/
def olookup {K V : Type} [DecidableEq K] : List (K × V) → K → Option V
  | [], _ => none
  | kv :: rest, k => if kv.1 = k then some kv.2 else olookup rest k

/-- `pat` occurs as a contiguous substring of `s`. -/
def occursIn (pat s : List Char) : Prop :=
  ∃ i, matchesAt pat (List.drop i s) = true

/-- The contribution of one trial's association list to key `k`: the sum
of the values recorded under `k`. -/
def keyedSum {K : Type} [DecidableEq K] : List (K × Nat) → K → Nat
  | [], _ => 0
  | kv :: rest, k => (if kv.1 = k then kv.2 else 0) + keyedSum rest k

/-- The contribution of one trial's win map to key `k`: 1 for every
entry under `k` whose recorded outcome is `true`. -/
def keyedCount {K : Type} [DecidableEq K] : List (K × Bool) → K → Nat
  | [], _ => 0
  | kv :: rest, k => (if kv.1 = k ∧ kv.2 = true then 1 else 0) + keyedCount rest k

/-- Every value stored in the association list is at most `B`. -/
def allLe {K : Type} (m : List (K × Nat)) (B : Nat) : Prop :=
  ∀ kv ∈ m, kv.2 ≤ B

/-- A random source whose first 100 draws are low (giving 'D') and whose
later draws are high (giving 'U'). -/
def mr0 : MyRand := ⟨fun i => if i < 100 then 1 else 6, 0⟩

/-- A length-100 sequence whose only occurrence of "UUU" starts at
index 97. -/
def seqC2 : List Char := List.replicate 97 'D' ++ ['U','U','U']

/-- The all-'U' sequence of length 100. -/
def seqAllU : List Char := List.replicate 100 'U'

/-- The sequence "UDUDDUU" of the spec's end-to-end scenario. -/
def sUDUDDUU : List Char := ['U','D','U','D','D','U','U']

/-- The pattern "DDD". -/
def pDDD : List Char := ['D','D','D']

/-- The pattern "DDU". -/
def pDDU : List Char := ['D','D','U']

/-- The pattern "UDU". -/
def pUDU : List Char := ['U','D','U']

/-- The pattern "UUU". -/
def pUUU : List Char := ['U','U','U']

/-! ### Basic facts about the pattern tables -/

theorem udarray_nodup : udarray.Nodup := by decide

theorem cbarray_nodup : cbarray.Nodup := by decide

theorem length_of_mem_udarray : ∀ p ∈ udarray, p.length = 3 := by decide

theorem swap_mem_cbarray : ∀ sp ∈ cbarray, (sp.2, sp.1) ∈ cbarray := by decide

/-! ### The substring search -/

theorem matchesAt_length {pat : List Char} :
    ∀ {s : List Char}, matchesAt pat s = true → pat.length ≤ s.length := by
  induction pat with
  | nil => intro s _; exact Nat.zero_le _
  | cons p ps ih =>
    intro s h
    match s with
    | [] => simp [matchesAt] at h
    | c :: cs =>
      simp only [matchesAt] at h
      split at h
      · simpa using Nat.succ_le_succ (ih h)
      · cases h

theorem findSub_some_matches {pat : List Char} :
    ∀ {s : List Char} {i : Nat},
      findSub pat s = some i → matchesAt pat (List.drop i s) = true := by
  intro s
  induction s with
  | nil =>
    intro i h
    simp only [findSub] at h
    split at h
    · cases h; simpa using ‹matchesAt pat [] = true›
    · cases h
  | cons c cs ih =>
    intro i h
    simp only [findSub] at h
    split at h
    · cases h; simpa using ‹matchesAt pat (c :: cs) = true›
    · rcases Option.map_eq_some'.mp h with ⟨n, hn, rfl⟩
      simpa using ih hn

theorem findSub_some_least {pat : List Char} :
    ∀ {s : List Char} {i : Nat},
      findSub pat s = some i →
      ∀ j, j < i → matchesAt pat (List.drop j s) = false := by
  intro s
  induction s with
  | nil =>
    intro i h j hj
    simp only [findSub] at h
    split at h
    · cases h; omega
    · cases h
  | cons c cs ih =>
    intro i h j hj
    simp only [findSub] at h
    split at h
    · cases h; omega
    · rcases Option.map_eq_some'.mp h with ⟨n, hn, rfl⟩
      match j with
      | 0 => simpa using Bool.eq_false_iff.mpr ‹¬ matchesAt pat (c :: cs) = true›
      | j' + 1 =>
        have : j' < n := by omega
        simpa using ih hn j' this

theorem findSub_none {pat : List Char} :
    ∀ {s : List Char}, findSub pat s = none →
      ∀ i, matchesAt pat (List.drop i s) = false := by
  intro s
  induction s with
  | nil =>
    intro h i
    simp only [findSub] at h
    split at h
    · cases h
    · simpa [List.drop_nil] using Bool.eq_false_iff.mpr ‹¬ matchesAt pat [] = true›
  | cons c cs ih =>
    intro h i
    simp only [findSub] at h
    split at h
    · cases h
    · have hrest : findSub pat cs = none := Option.map_eq_none'.mp h
      match i with
      | 0 => simpa using Bool.eq_false_iff.mpr ‹¬ matchesAt pat (c :: cs) = true›
      | i' + 1 => simpa using ih hrest i'

theorem findSub_complete {pat s : List Char} {i : Nat}
    (hm : matchesAt pat (List.drop i s) = true)
    (hleast : ∀ j, j < i → matchesAt pat (List.drop j s) = false) :
    findSub pat s = some i := by
  cases hfs : findSub pat s with
  | none => rw [findSub_none hfs i] at hm; cases hm
  | some i' =>
    rcases Nat.lt_trichotomy i' i with h | h | h
    · have h1 := findSub_some_matches hfs
      rw [hleast i' h] at h1
      cases h1
    · rw [h]
    · rw [findSub_some_least hfs i h] at hm; cases hm

theorem findSub_some_le {pat s : List Char} {i : Nat} (hp : 0 < pat.length)
    (h : findSub pat s = some i) : i + pat.length ≤ s.length := by
  have hl := matchesAt_length (findSub_some_matches h)
  rw [List.length_drop] at hl
  omega

/-! ### Facts about `myfind` -/

theorem three_le_myfind (p s : List Char) : 3 ≤ myfind p s := by
  unfold myfind
  cases hfs : findSub p s with
  | none => show 3 ≤ RANDNUMTABLELEN; norm_num [RANDNUMTABLELEN]
  | some i => show 3 ≤ i + 3; omega

theorem myfind_le {p s : List Char} (hp : p.length = 3) (hs : s.length ≤ 100) :
    myfind p s ≤ 100 := by
  unfold myfind
  cases hfs : findSub p s with
  | none => show RANDNUMTABLELEN ≤ 100; norm_num [RANDNUMTABLELEN]
  | some i =>
    show i + 3 ≤ 100
    have h0 : 0 < p.length := by omega
    have := findSub_some_le h0 hfs
    omega

theorem myfind_of_not_occurs {p s : List Char} (h : ¬ occursIn p s) :
    myfind p s = RANDNUMTABLELEN := by
  unfold myfind
  cases hfs : findSub p s with
  | none => rfl
  | some i => exact absurd ⟨i, findSub_some_matches hfs⟩ h

theorem myfind_of_first {p s : List Char} {i : Nat}
    (hm : matchesAt p (List.drop i s) = true)
    (hleast : ∀ j, j < i → matchesAt p (List.drop j s) = false) :
    myfind p s = i + 3 := by
  unfold myfind
  rw [findSub_complete hm hleast]

/-! ### Association-list accumulation -/

theorem glookup_addKey_self {K : Type} [DecidableEq K]
    (m : List (K × Nat)) (k : K) (v : Nat) :
    glookup (addKey m k v) k = glookup m k + v := by
  induction m with
  | nil => simp [addKey, glookup]
  | cons kv rest ih =>
    by_cases h1 : kv.1 = k
    · simp [addKey, glookup, h1]
    · simp [addKey, glookup, h1, ih]

theorem glookup_addKey_ne {K : Type} [DecidableEq K]
    (m : List (K × Nat)) {k k' : K} (v : Nat) (h : k ≠ k') :
    glookup (addKey m k v) k' = glookup m k' := by
  induction m with
  | nil => simp [addKey, glookup, h]
  | cons kv rest ih =>
    by_cases h1 : kv.1 = k
    · have h2 : kv.1 ≠ k' := fun hc => h (h1 ▸ hc)
      simp [addKey, glookup, h1, h2, h]
    · by_cases h2 : kv.1 = k'
      · simp [addKey, glookup, h1, h2, Ne.symm h]
      · simp [addKey, glookup, h1, h2, ih]

theorem keys_addKey {K : Type} [DecidableEq K]
    (m : List (K × Nat)) {k : K} (v : Nat) (h : k ∈ m.map Prod.fst) :
    (addKey m k v).map Prod.fst = m.map Prod.fst := by
  induction m with
  | nil => simp at h
  | cons kv rest ih =>
    by_cases h1 : kv.1 = k
    · simp [addKey, h1]
    · have h2 : k ∈ rest.map Prod.fst := by
        rcases List.mem_map.mp h with ⟨x, hx, hxk⟩
        rcases List.mem_cons.mp hx with hx1 | hx1
        · exact absurd (hx1 ▸ hxk) h1
        · exact List.mem_map.mpr ⟨x, hx1, hxk⟩
      simp [addKey, h1, ih h2]

theorem olookup_map_of_nodup {K V : Type} [DecidableEq K]
    {l : List K} (w : K → V) {p : K} (hl : l.Nodup) (hp : p ∈ l) :
    olookup (l.map (fun q => (q, w q))) p = some (w p) := by
  induction l with
  | nil => simp at hp
  | cons q rest ih =>
    by_cases h : q = p
    · simp [olookup, h]
    · have hp' : p ∈ rest := by
        rcases List.mem_cons.mp hp with hp1 | hp1
        · exact absurd hp1.symm h
        · exact hp1
      simp [olookup, h, ih (List.Nodup.of_cons hl) hp']

theorem glookup_map_of_nodup {K : Type} [DecidableEq K]
    {l : List K} (w : K → Nat) {p : K} (hl : l.Nodup) (hp : p ∈ l) :
    glookup (l.map (fun q => (q, w q))) p = w p := by
  induction l with
  | nil => simp at hp
  | cons q rest ih =>
    by_cases h : q = p
    · simp [glookup, h]
    · have hp' : p ∈ rest := by
        rcases List.mem_cons.mp hp with hp1 | hp1
        · exact absurd hp1.symm h
        · exact hp1
      simp [glookup, h, ih (List.Nodup.of_cons hl) hp']

theorem glookup_map_zero {K : Type} [DecidableEq K] (l : List K) (k : K) :
    glookup (l.map (fun q => (q, (0 : Nat)))) k = 0 := by
  induction l with
  | nil => simp [glookup]
  | cons q rest ih =>
    by_cases h : q = k <;> simp [glookup, h, ih]

theorem keyedSum_map_of_not_mem {K : Type} [DecidableEq K]
    {l : List K} (w : K → Nat) {p : K} (hp : p ∉ l) :
    keyedSum (l.map (fun q => (q, w q))) p = 0 := by
  induction l with
  | nil => simp [keyedSum]
  | cons q rest ih =>
    have hq : q ≠ p := fun h => hp (h ▸ List.mem_cons_self q rest)
    have hp' : p ∉ rest := fun h => hp (List.mem_cons_of_mem q h)
    simp [keyedSum, hq, ih hp']

theorem keyedSum_map_of_nodup {K : Type} [DecidableEq K]
    {l : List K} (w : K → Nat) {p : K} (hl : l.Nodup) (hp : p ∈ l) :
    keyedSum (l.map (fun q => (q, w q))) p = w p := by
  induction l with
  | nil => simp at hp
  | cons q rest ih =>
    by_cases h : q = p
    · subst h
      have : q ∉ rest := (List.nodup_cons.mp hl).1
      simp [keyedSum, keyedSum_map_of_not_mem w this]
    · have hp' : p ∈ rest := by
        rcases List.mem_cons.mp hp with hp1 | hp1
        · exact absurd hp1.symm h
        · exact hp1
      simp [keyedSum, h, ih (List.Nodup.of_cons hl) hp']

theorem keyedCount_map_of_not_mem {K : Type} [DecidableEq K]
    {l : List K} (w : K → Bool) {p : K} (hp : p ∉ l) :
    keyedCount (l.map (fun q => (q, w q))) p = 0 := by
  induction l with
  | nil => simp [keyedCount]
  | cons q rest ih =>
    have hq : q ≠ p := fun h => hp (h ▸ List.mem_cons_self q rest)
    have hp' : p ∉ rest := fun h => hp (List.mem_cons_of_mem q h)
    simp [keyedCount, hq, ih hp']

theorem keyedCount_map_of_nodup {K : Type} [DecidableEq K]
    {l : List K} (w : K → Bool) {p : K} (hl : l.Nodup) (hp : p ∈ l) :
    keyedCount (l.map (fun q => (q, w q))) p = if w p then 1 else 0 := by
  induction l with
  | nil => simp at hp
  | cons q rest ih =>
    by_cases h : q = p
    · subst h
      have : q ∉ rest := (List.nodup_cons.mp hl).1
      simp [keyedCount, keyedCount_map_of_not_mem w this]
    · have hp' : p ∈ rest := by
        rcases List.mem_cons.mp hp with hp1 | hp1
        · exact absurd hp1.symm h
        · exact hp1
      simp [keyedCount, h, ih (List.Nodup.of_cons hl) hp']

theorem glookup_foldAdd {K : Type} [DecidableEq K] :
    ∀ (l : List (K × Nat)) (acc : List (K × Nat)) (k : K),
      glookup (l.foldl (fun a kv => addKey a kv.1 kv.2) acc) k
        = glookup acc k + keyedSum l k := by
  intro l
  induction l with
  | nil => intro acc k; simp [keyedSum]
  | cons kv rest ih =>
    intro acc k
    simp only [List.foldl_cons, keyedSum]
    rw [ih]
    by_cases h : kv.1 = k
    · subst h
      rw [glookup_addKey_self]
      simp; omega
    · rw [glookup_addKey_ne _ _ h]
      simp [h]

theorem glookup_foldWin {K : Type} [DecidableEq K] :
    ∀ (l : List (K × Bool)) (acc : List (K × Nat)) (k : K),
      glookup (l.foldl (fun a kv => if kv.2 then addKey a kv.1 1 else a) acc) k
        = glookup acc k + keyedCount l k := by
  intro l
  induction l with
  | nil => intro acc k; simp [keyedCount]
  | cons kv rest ih =>
    intro acc k
    simp only [List.foldl_cons, keyedCount]
    rw [ih]
    by_cases hb : kv.2 = true
    · by_cases h : kv.1 = k
      · subst h
        rw [if_pos hb, glookup_addKey_self]
        simp [hb]; omega
      · rw [if_pos hb, glookup_addKey_ne _ _ h]
        simp [h]
    · rw [if_neg hb]
      simp [hb]

theorem keys_foldAdd {K : Type} [DecidableEq K] :
    ∀ (l : List (K × Nat)) (acc : List (K × Nat)),
      (∀ kv ∈ l, kv.1 ∈ acc.map Prod.fst) →
      (l.foldl (fun a kv => addKey a kv.1 kv.2) acc).map Prod.fst
        = acc.map Prod.fst := by
  intro l
  induction l with
  | nil => intro acc _; rfl
  | cons kv rest ih =>
    intro acc h
    have hk : kv.1 ∈ acc.map Prod.fst := h kv (List.mem_cons_self kv rest)
    have hkeys := keys_addKey acc kv.2 hk
    simp only [List.foldl_cons]
    rw [ih (addKey acc kv.1 kv.2) (fun kv' h' => hkeys ▸ h kv' (List.mem_cons_of_mem kv h')),
      hkeys]

theorem keys_foldWin {K : Type} [DecidableEq K] :
    ∀ (l : List (K × Bool)) (acc : List (K × Nat)),
      (∀ kv ∈ l, kv.1 ∈ acc.map Prod.fst) →
      (l.foldl (fun a kv => if kv.2 then addKey a kv.1 1 else a) acc).map Prod.fst
        = acc.map Prod.fst := by
  intro l
  induction l with
  | nil => intro acc _; rfl
  | cons kv rest ih =>
    intro acc h
    have hk : kv.1 ∈ acc.map Prod.fst := h kv (List.mem_cons_self kv rest)
    have hkeys : (if kv.2 then addKey acc kv.1 1 else acc).map Prod.fst
        = acc.map Prod.fst := by
      by_cases hb : kv.2 = true
      · simp only [if_pos hb]; exact keys_addKey acc 1 hk
      · simp only [Bool.not_eq_true] at hb; simp [hb]
    simp only [List.foldl_cons]
    rw [ih (if kv.2 then addKey acc kv.1 1 else acc)
        (fun kv' h' => hkeys ▸ h kv' (List.mem_cons_of_mem kv h')),
      hkeys]

theorem assoc_ext {K : Type} [DecidableEq K] :
    ∀ (m : List (K × Nat)) (l : List K) (g : K → Nat),
      m.map Prod.fst = l → l.Nodup → (∀ k ∈ l, glookup m k = g k) →
      m = l.map (fun k => (k, g k)) := by
  intro m
  induction m with
  | nil =>
    intro l g hk _ _
    simp at hk
    simp [← hk]
  | cons kv rest ih =>
    intro l g hk hnd hv
    match l, hk with
    | .cons a l', hk =>
      have hka2 : kv.1 = a ∧ rest.map Prod.fst = l' := by simpa using hk
      rcases hka2 with ⟨hka, hkl⟩
      subst hka
      have hhead : kv.2 = g kv.1 := by
        have := hv kv.1 (List.mem_cons_self _ _)
        simpa [glookup] using this
      have hnotmem : kv.1 ∉ l' := (List.nodup_cons.mp hnd).1
      have htail : ∀ k ∈ l', glookup rest k = g k := by
        intro k hkmem
        have hne : kv.1 ≠ k := fun h => hnotmem (h ▸ hkmem)
        have := hv k (List.mem_cons_of_mem _ hkmem)
        simpa [glookup, hne] using this
      have := ih l' g hkl (List.Nodup.of_cons hnd) htail
      simp only [List.map_cons]
      rw [← this, ← hhead]

theorem sum_map_ite_eq_countP {α : Type} (l : List α) (p : α → Bool) :
    (l.map (fun x => if p x = true then 1 else 0)).sum = l.countP p := by
  induction l with
  | nil => simp
  | cons a rest ih =>
    simp only [List.map_cons, List.sum_cons, List.countP_cons, ih]
    by_cases h : p a = true
    · simp [h]; omega
    · simp [h]

theorem sum_map_le {α : Type} (l : List α) (f : α → Nat) (c : Nat)
    (h : ∀ x ∈ l, f x ≤ c) :
    (l.map f).sum ≤ l.length * c := by
  induction l with
  | nil => simp
  | cons a rest ih =>
    simp only [List.map_cons, List.sum_cons, List.length_cons, Nat.succ_mul]
    have h1 := h a (List.mem_cons_self a rest)
    have h2 := ih (fun x hx => h x (List.mem_cons_of_mem a hx))
    omega

theorem glookup_outerAdd {K : Type} [DecidableEq K] :
    ∀ (rs : List (List (K × Nat))) (acc : List (K × Nat)) (k : K),
      glookup (rs.foldl
          (fun acc mcr => mcr.foldl (fun a kv => addKey a kv.1 kv.2) acc) acc) k
        = glookup acc k + (rs.map (fun r => keyedSum r k)).sum := by
  intro rs
  induction rs with
  | nil => intro acc k; simp
  | cons r rest ih =>
    intro acc k
    simp only [List.foldl_cons, List.map_cons, List.sum_cons]
    rw [ih, glookup_foldAdd]
    omega

theorem glookup_outerWin {K : Type} [DecidableEq K] :
    ∀ (rs : List (List (K × Bool))) (acc : List (K × Nat)) (k : K),
      glookup (rs.foldl
          (fun acc mcr =>
            mcr.foldl (fun a kv => if kv.2 then addKey a kv.1 1 else a) acc) acc) k
        = glookup acc k + (rs.map (fun r => keyedCount r k)).sum := by
  intro rs
  induction rs with
  | nil => intro acc k; simp
  | cons r rest ih =>
    intro acc k
    simp only [List.foldl_cons, List.map_cons, List.sum_cons]
    rw [ih, glookup_foldWin]
    omega

theorem keys_outerAdd {K : Type} [DecidableEq K] :
    ∀ (rs : List (List (K × Nat))) (acc : List (K × Nat)),
      (∀ r ∈ rs, ∀ kv ∈ r, kv.1 ∈ acc.map Prod.fst) →
      (rs.foldl
          (fun acc mcr => mcr.foldl (fun a kv => addKey a kv.1 kv.2) acc)
          acc).map Prod.fst
        = acc.map Prod.fst := by
  intro rs
  induction rs with
  | nil => intro acc _; rfl
  | cons r rest ih =>
    intro acc h
    have hkeys := keys_foldAdd r acc (h r (List.mem_cons_self r rest))
    simp only [List.foldl_cons]
    rw [ih _ (fun r' hr' kv hkv => hkeys ▸ h r' (List.mem_cons_of_mem r hr') kv hkv),
      hkeys]

theorem keys_outerWin {K : Type} [DecidableEq K] :
    ∀ (rs : List (List (K × Bool))) (acc : List (K × Nat)),
      (∀ r ∈ rs, ∀ kv ∈ r, kv.1 ∈ acc.map Prod.fst) →
      (rs.foldl
          (fun acc mcr =>
            mcr.foldl (fun a kv => if kv.2 then addKey a kv.1 1 else a) acc)
          acc).map Prod.fst
        = acc.map Prod.fst := by
  intro rs
  induction rs with
  | nil => intro acc _; rfl
  | cons r rest ih =>
    intro acc h
    have hkeys := keys_foldWin r acc (h r (List.mem_cons_self r rest))
    simp only [List.foldl_cons]
    rw [ih _ (fun r' hr' kv hkv => hkeys ▸ h r' (List.mem_cons_of_mem r hr') kv hkv),
      hkeys]

/-! ### Characterisation of the two aggregators -/

theorem keys_avgPass (s : List Char) : (avgPass s).map Prod.fst = udarray := by
  simp [avgPass, Function.comp_def]

theorem keys_winPass (s : List Char) : (winPass s).map Prod.fst = cbarray := by
  simp [winPass, Function.comp_def]

theorem glookup_avgPass {p : List Char} (s : List Char) (hp : p ∈ udarray) :
    glookup (avgPass s) p = myfind p s :=
  glookup_map_of_nodup _ udarray_nodup hp

theorem olookup_winPass {sp : List Char × List Char} (s : List Char)
    (hsp : sp ∈ cbarray) :
    olookup (winPass s) sp = some (decide (myfind sp.1 s < myfind sp.2 s)) :=
  olookup_map_of_nodup _ cbarray_nodup hsp

theorem sumMontecarloAvg_eq (rs : List (List (List Char × Nat)))
    (hr : ∀ r ∈ rs, ∃ s : List Char, r = avgPass s) :
    sumMontecarloAvg rs
      = udarray.map (fun p => (p, (rs.map (fun r => glookup r p)).sum)) := by
  unfold sumMontecarloAvg
  apply assoc_ext
  · apply keys_outerAdd
    intro r hrmem kv hkv
    rcases hr r hrmem with ⟨s, rfl⟩
    rcases List.mem_map.mp hkv with ⟨p, hpmem, rfl⟩
    simp [hpmem]
  · exact udarray_nodup
  · intro k hk
    rw [glookup_outerAdd, glookup_map_zero, Nat.zero_add]
    apply congrArg
    apply List.map_congr_left
    intro r hrmem
    rcases hr r hrmem with ⟨s, rfl⟩
    unfold avgPass
    rw [keyedSum_map_of_nodup _ udarray_nodup hk,
      glookup_map_of_nodup _ udarray_nodup hk]

theorem aggregateWinningAvg_eq (rs : List (List ((List Char × List Char) × Bool)))
    (hr : ∀ r ∈ rs, ∃ s : List Char, r = winPass s) :
    aggregateWinningAvg rs
      = cbarray.map (fun sp =>
          (sp, rs.countP (fun r => decide (olookup r sp = some true)))) := by
  unfold aggregateWinningAvg
  apply assoc_ext
  · apply keys_outerWin
    intro r hrmem kv hkv
    rcases hr r hrmem with ⟨s, rfl⟩
    rcases List.mem_map.mp hkv with ⟨sp, hspmem, rfl⟩
    simp [hspmem]
  · exact cbarray_nodup
  · intro k hk
    rw [glookup_outerWin, glookup_map_zero, Nat.zero_add,
      ← sum_map_ite_eq_countP]
    apply congrArg
    apply List.map_congr_left
    intro r hrmem
    rcases hr r hrmem with ⟨s, rfl⟩
    have ho := olookup_map_of_nodup
      (fun sp => decide (myfind sp.1 s < myfind sp.2 s)) cbarray_nodup hk
    unfold winPass
    rw [keyedCount_map_of_nodup _ cbarray_nodup hk, ho]
    cases hw : decide (myfind k.1 s < myfind k.2 s) <;> simp [hw]

theorem glookup_aggregateWinningAvg (ss : List (List Char))
    {sp : List Char × List Char} (hsp : sp ∈ cbarray) :
    glookup (aggregateWinningAvg (ss.map winPass)) sp
      = ss.countP (fun s => decide (myfind sp.1 s < myfind sp.2 s)) := by
  unfold aggregateWinningAvg
  rw [glookup_outerWin, glookup_map_zero, Nat.zero_add, List.map_map,
    ← sum_map_ite_eq_countP]
  apply congrArg
  apply List.map_congr_left
  intro s _
  rw [Function.comp_apply]
  unfold winPass
  rw [keyedCount_map_of_nodup _ cbarray_nodup hsp]

/-! ### The random string generator -/

theorem makerandomudstrAux_spec :
    ∀ (n : Nat) (mr : MyRand),
      makerandomudstrAux n mr
        = ((List.range' mr.state n).map
            (fun i => if mr.draws i > 3 then 'U' else 'D'),
           ⟨mr.draws, mr.state + n⟩) := by
  intro n
  induction n with
  | zero => intro mr; simp [makerandomudstrAux]
  | succ n ih =>
    intro mr
    simp only [makerandomudstrAux, MyRand.myrand]
    rw [ih ⟨mr.draws, mr.state + 1⟩]
    rw [List.range'_succ]
    simp only [List.map_cons]
    refine Prod.ext ?_ ?_
    · simp
    · simp only []
      congr 1
      omega

theorem makerandomudstr_spec (mr : MyRand) :
    makerandomudstr mr
      = ((List.range' mr.state RANDNUMTABLELEN).map
          (fun i => if mr.draws i > 3 then 'U' else 'D'),
         ⟨mr.draws, mr.state + RANDNUMTABLELEN⟩) :=
  makerandomudstrAux_spec RANDNUMTABLELEN mr

theorem makerandomudstr_length (mr : MyRand) :
    (makerandomudstr mr).1.length = RANDNUMTABLELEN := by
  rw [makerandomudstr_spec]
  simp

/-! ### Counting lemmas -/

theorem countP_add_le {α : Type} (l : List α) (p q : α → Bool)
    (hpq : ∀ x ∈ l, ¬(p x = true ∧ q x = true)) :
    l.countP p + l.countP q ≤ l.length
    ∧ (l.countP p + l.countP q = l.length
        ↔ ∀ x ∈ l, p x = true ∨ q x = true) := by
  induction l with
  | nil => simp
  | cons a rest ih =>
    have h1 := hpq a (List.mem_cons_self a rest)
    obtain ⟨ih1, ih2⟩ := ih (fun x hx => hpq x (List.mem_cons_of_mem a hx))
    simp only [List.countP_cons, List.length_cons]
    by_cases hp : p a = true
    · have hq : ¬ q a = true := fun hq => h1 ⟨hp, hq⟩
      simp only [hp, hq, Bool.false_eq_true, if_true, if_false]
      refine ⟨by omega, ?_⟩
      rw [List.forall_mem_cons]
      constructor
      · intro he
        exact ⟨Or.inl hp, ih2.mp (by omega)⟩
      · rintro ⟨_, hrest⟩
        have := ih2.mpr hrest
        omega
    · by_cases hq : q a = true
      · simp only [hp, hq, Bool.false_eq_true, if_true, if_false]
        refine ⟨by omega, ?_⟩
        rw [List.forall_mem_cons]
        constructor
        · intro he
          exact ⟨Or.inr hq, ih2.mp (by omega)⟩
        · rintro ⟨_, hrest⟩
          have := ih2.mpr hrest
          omega
      · simp only [hp, hq, Bool.false_eq_true, if_false]
        refine ⟨by omega, ?_⟩
        rw [List.forall_mem_cons]
        constructor
        · intro he
          exact absurd rfl (by omega : ¬ (0 : Nat) = 0)
        · rintro ⟨hhead, _⟩
          rcases hhead with h | h <;> contradiction

/-! ### Absence of 32-bit wraparound -/

theorem allLe_mono {K : Type} {m : List (K × Nat)} {B B' : Nat}
    (hm : allLe m B) (h : B ≤ B') : allLe m B' :=
  fun kv hkv => Nat.le_trans (hm kv hkv) h

theorem glookup_le_of_allLe {K : Type} [DecidableEq K]
    {m : List (K × Nat)} {B : Nat} (hm : allLe m B) (k : K) :
    glookup m k ≤ B := by
  induction m with
  | nil => exact Nat.zero_le _
  | cons kv rest ih =>
    by_cases h1 : kv.1 = k
    · simpa [glookup, h1] using hm kv (List.mem_cons_self kv rest)
    · simpa [glookup, h1] using ih (fun kv' h' => hm kv' (List.mem_cons_of_mem kv h'))

theorem allLe_addKey {K : Type} [DecidableEq K]
    {m : List (K × Nat)} {B : Nat} (hm : allLe m B)
    (k : K) {v C : Nat} (hv : v ≤ C) : allLe (addKey m k v) (B + C) := by
  induction m with
  | nil =>
    intro kv hkv
    simp only [addKey, List.mem_singleton] at hkv
    subst hkv
    omega
  | cons kv rest ih =>
    intro kv' hkv'
    by_cases h1 : kv.1 = k
    · simp only [addKey, if_pos h1] at hkv'
      rcases List.mem_cons.mp hkv' with h | h
      · have := hm kv (List.mem_cons_self kv rest)
        subst h; simp; omega
      · exact Nat.le_trans (hm kv' (List.mem_cons_of_mem kv h)) (Nat.le_add_right B C)
    · simp only [addKey, if_neg h1] at hkv'
      rcases List.mem_cons.mp hkv' with h | h
      · subst h
        exact Nat.le_trans (hm kv' (List.mem_cons_self kv' rest)) (Nat.le_add_right B C)
      · exact ih (fun kv'' h'' => hm kv'' (List.mem_cons_of_mem kv h'')) kv' h

theorem addKey32_eq_addKey {K : Type} [DecidableEq K] :
    ∀ (m : List (K × Nat)) (k : K) (v : Nat),
      glookup m k + v < 4294967296 → addKey32 m k v = addKey m k v := by
  intro m
  induction m with
  | nil =>
    intro k v h
    simp only [glookup, Nat.zero_add] at h
    simp [addKey32, addKey, Nat.mod_eq_of_lt h]
  | cons kv rest ih =>
    intro k v h
    by_cases h1 : kv.1 = k
    · simp only [glookup, if_pos h1] at h
      simp [addKey32, addKey, h1, Nat.mod_eq_of_lt h]
    · simp only [glookup, if_neg h1] at h
      simp [addKey32, addKey, h1, ih k v h]

theorem allLe_foldAdd {K : Type} [DecidableEq K] :
    ∀ (l : List (K × Nat)) (acc : List (K × Nat)) (B C : Nat),
      allLe acc B → (∀ kv ∈ l, kv.2 ≤ C) →
      allLe (l.foldl (fun a kv => addKey a kv.1 kv.2) acc) (B + l.length * C) := by
  intro l
  induction l with
  | nil =>
    intro acc B C hacc _
    simpa using hacc
  | cons kv rest ih =>
    intro acc B C hacc hl
    simp only [List.foldl_cons, List.length_cons]
    have h1 : allLe (addKey acc kv.1 kv.2) (B + C) :=
      allLe_addKey hacc kv.1 (hl kv (List.mem_cons_self kv rest))
    have h2 := ih (addKey acc kv.1 kv.2) (B + C) C h1
      (fun kv' h' => hl kv' (List.mem_cons_of_mem kv h'))
    have harith : B + C + rest.length * C = B + (rest.length + 1) * C := by ring
    rwa [harith] at h2

theorem foldAdd32_eq {K : Type} [DecidableEq K] :
    ∀ (l : List (K × Nat)) (acc : List (K × Nat)) (B C : Nat),
      allLe acc B → (∀ kv ∈ l, kv.2 ≤ C) →
      B + l.length * C < 4294967296 →
      l.foldl (fun a kv => addKey32 a kv.1 kv.2) acc
        = l.foldl (fun a kv => addKey a kv.1 kv.2) acc := by
  intro l
  induction l with
  | nil => intro acc B C _ _ _; rfl
  | cons kv rest ih =>
    intro acc B C hacc hl hB
    have hv : kv.2 ≤ C := hl kv (List.mem_cons_self kv rest)
    have hg : glookup acc kv.1 + kv.2 < 4294967296 := by
      have h1 := glookup_le_of_allLe hacc kv.1
      have h2 : C ≤ (rest.length + 1) * C := by
        calc C = 1 * C := (Nat.one_mul C).symm
        _ ≤ (rest.length + 1) * C := Nat.mul_le_mul_right C (by omega)
      simp only [List.length_cons] at hB
      omega
    have h1 : allLe (addKey acc kv.1 kv.2) (B + C) :=
      allLe_addKey hacc kv.1 hv
    simp only [List.foldl_cons, addKey32_eq_addKey acc kv.1 kv.2 hg]
    apply ih (addKey acc kv.1 kv.2) (B + C) C h1
      (fun kv' h' => hl kv' (List.mem_cons_of_mem kv h'))
    have harith : B + C + rest.length * C = B + (rest.length + 1) * C := by ring
    simp only [List.length_cons] at hB
    omega

theorem allLe_foldWin {K : Type} [DecidableEq K] :
    ∀ (l : List (K × Bool)) (acc : List (K × Nat)) (B : Nat),
      allLe acc B →
      allLe (l.foldl (fun a kv => if kv.2 then addKey a kv.1 1 else a) acc)
        (B + l.length) := by
  intro l
  induction l with
  | nil =>
    intro acc B hacc
    simpa using hacc
  | cons kv rest ih =>
    intro acc B hacc
    simp only [List.foldl_cons, List.length_cons]
    have h1 : allLe (if kv.2 then addKey acc kv.1 1 else acc) (B + 1) := by
      by_cases hb : kv.2 = true
      · simp only [if_pos hb]
        exact allLe_addKey hacc kv.1 (Nat.le_refl 1)
      · simp only [Bool.not_eq_true] at hb
        simp only [hb, Bool.false_eq_true, if_false]
        exact allLe_mono hacc (Nat.le_add_right B 1)
    have h2 := ih _ (B + 1) h1
    have harith : B + 1 + rest.length = B + (rest.length + 1) := by omega
    rwa [harith] at h2

theorem foldWin32_eq {K : Type} [DecidableEq K] :
    ∀ (l : List (K × Bool)) (acc : List (K × Nat)) (B : Nat),
      allLe acc B → B + l.length < 4294967296 →
      l.foldl (fun a kv => if kv.2 then addKey32 a kv.1 1 else a) acc
        = l.foldl (fun a kv => if kv.2 then addKey a kv.1 1 else a) acc := by
  intro l
  induction l with
  | nil => intro acc B _ _; rfl
  | cons kv rest ih =>
    intro acc B hacc hB
    simp only [List.length_cons] at hB
    have hstep : (if kv.2 then addKey32 acc kv.1 1 else acc)
        = (if kv.2 then addKey acc kv.1 1 else acc) := by
      by_cases hb : kv.2 = true
      · simp only [if_pos hb]
        apply addKey32_eq_addKey
        have := glookup_le_of_allLe hacc kv.1
        omega
      · simp only [Bool.not_eq_true] at hb
        simp [hb]
    have h1 : allLe (if kv.2 then addKey acc kv.1 1 else acc) (B + 1) := by
      by_cases hb : kv.2 = true
      · simp only [if_pos hb]
        exact allLe_addKey hacc kv.1 (Nat.le_refl 1)
      · simp only [Bool.not_eq_true] at hb
        simp only [hb, Bool.false_eq_true, if_false]
        exact allLe_mono hacc (Nat.le_add_right B 1)
    simp only [List.foldl_cons, hstep]
    exact ih _ (B + 1) h1 (by omega)

theorem outerAdd32_eq {K : Type} [DecidableEq K] :
    ∀ (rs : List (List (K × Nat))) (acc : List (K × Nat)) (B C L : Nat),
      allLe acc B →
      (∀ r ∈ rs, (∀ kv ∈ r, kv.2 ≤ C) ∧ r.length ≤ L) →
      B + rs.length * (L * C) < 4294967296 →
      rs.foldl (fun acc mcr => mcr.foldl (fun a kv => addKey32 a kv.1 kv.2) acc) acc
        = rs.foldl (fun acc mcr => mcr.foldl (fun a kv => addKey a kv.1 kv.2) acc) acc := by
  intro rs
  induction rs with
  | nil => intro acc B C L _ _ _; rfl
  | cons r rest ih =>
    intro acc B C L hacc hr hB
    simp only [List.length_cons] at hB
    obtain ⟨hrC, hrL⟩ := hr r (List.mem_cons_self r rest)
    have hLC : r.length * C ≤ L * C := Nat.mul_le_mul_right C hrL
    have hLC2 : L * C ≤ (rest.length + 1) * (L * C) := by
      calc L * C = 1 * (L * C) := (Nat.one_mul _).symm
      _ ≤ (rest.length + 1) * (L * C) := Nat.mul_le_mul_right _ (by omega)
    have hinner : r.foldl (fun a kv => addKey32 a kv.1 kv.2) acc
        = r.foldl (fun a kv => addKey a kv.1 kv.2) acc := by
      apply foldAdd32_eq r acc B C hacc hrC
      omega
    have h1 : allLe (r.foldl (fun a kv => addKey a kv.1 kv.2) acc) (B + L * C) := by
      have := allLe_foldAdd r acc B C hacc hrC
      exact allLe_mono this (by omega)
    simp only [List.foldl_cons, hinner]
    apply ih _ (B + L * C) C L h1
      (fun r' h' => hr r' (List.mem_cons_of_mem r h'))
    have harith : rest.length * (L * C) + (L * C) = (rest.length + 1) * (L * C) := by ring
    omega

theorem outerWin32_eq {K : Type} [DecidableEq K] :
    ∀ (rs : List (List (K × Bool))) (acc : List (K × Nat)) (B L : Nat),
      allLe acc B →
      (∀ r ∈ rs, r.length ≤ L) →
      B + rs.length * L < 4294967296 →
      rs.foldl (fun acc mcr =>
          mcr.foldl (fun a kv => if kv.2 then addKey32 a kv.1 1 else a) acc) acc
        = rs.foldl (fun acc mcr =>
          mcr.foldl (fun a kv => if kv.2 then addKey a kv.1 1 else a) acc) acc := by
  intro rs
  induction rs with
  | nil => intro acc B L _ _ _; rfl
  | cons r rest ih =>
    intro acc B L hacc hr hB
    simp only [List.length_cons] at hB
    have hrL := hr r (List.mem_cons_self r rest)
    have hL2 : L ≤ (rest.length + 1) * L := by
      calc L = 1 * L := (Nat.one_mul _).symm
      _ ≤ (rest.length + 1) * L := Nat.mul_le_mul_right _ (by omega)
    have hinner : r.foldl (fun a kv => if kv.2 then addKey32 a kv.1 1 else a) acc
        = r.foldl (fun a kv => if kv.2 then addKey a kv.1 1 else a) acc := by
      apply foldWin32_eq r acc B hacc
      omega
    have h1 : allLe
        (r.foldl (fun a kv => if kv.2 then addKey a kv.1 1 else a) acc) (B + L) := by
      have := allLe_foldWin r acc B hacc
      exact allLe_mono this (by omega)
    simp only [List.foldl_cons, hinner]
    apply ih _ (B + L) L h1 (fun r' h' => hr r' (List.mem_cons_of_mem r h'))
    have harith : rest.length * L + L = (rest.length + 1) * L := by ring
    omega

theorem allLe_init {K : Type} (l : List K) :
    allLe (l.map (fun q => (q, (0 : Nat)))) 0 := by
  intro kv hkv
  rcases List.mem_map.mp hkv with ⟨q, _, rfl⟩
  exact Nat.le_refl 0

/-! ## The claims -/

set_option maxRecDepth 200000

/-- C9: `cbarray`, built by `makecombination`, holds exactly 56 ordered
pairs of patterns from the 8-pattern set; every pair has distinct
components, and every ordered pair of two distinct patterns appears
exactly once. -/
theorem C9_cbarray_enumeration :
    cbarray = makecombination
    ∧ cbarray.length = 56
    ∧ (∀ sp ∈ cbarray, sp.1 ∈ udarray ∧ sp.2 ∈ udarray ∧ sp.1 ≠ sp.2)
    ∧ (∀ a ∈ udarray, ∀ b ∈ udarray, a ≠ b → cbarray.count (a, b) = 1) :=
  ⟨rfl, by decide, by decide, by decide⟩

/-- C5: for every pattern of the 8-pattern set and every sequence in
which it occurs with lowest 0-based start index `i`, `myfind` returns
`i + length(pattern)`. -/
theorem C5_locator_end_position (p s : List Char) (i : Nat) (hp : p ∈ udarray)
    (hm : matchesAt p (List.drop i s) = true)
    (hleast : ∀ j, j < i → matchesAt p (List.drop j s) = false) :
    myfind p s = i + p.length := by
  rw [length_of_mem_udarray p hp]
  exact myfind_of_first hm hleast

/-- C5 witness: the spec's end-to-end scenario, pattern "UDU" in
"UDUDDUU" first occurs at index 0, so the locator returns 0 + 3. -/
theorem C5_witness : myfind pUDU sUDUDDUU = 0 + pUDU.length :=
  C5_locator_end_position pUDU sUDUDDUU 0 (by decide) (by decide)
    (fun j hj => absurd hj (Nat.not_lt_zero j))

/-- C2 counterexample: the claimed equivalence "result = sentinel iff
the pattern is not a substring" fails on the length-100 sequence whose
only occurrence of "UUU" starts at index 97: the locator returns
97 + 3 = 100, which is the sentinel, although the pattern does occur. -/
theorem C2_counterexample :
    ¬ (myfind pUUU seqC2 = RANDNUMTABLELEN ↔ ¬ occursIn pUUU seqC2) := by
  intro h
  have h1 : myfind pUUU seqC2 = RANDNUMTABLELEN := by decide
  exact (h.mp h1) ⟨97, by decide⟩

/-- C2 (amended): for every pattern of the 8-pattern set and every
length-100 sequence, the result of `myfind` lies in [3, 100]; it equals
the sentinel whenever the pattern is not a contiguous substring; and
when the pattern occurs with lowest start index `i` the result is
`i + 3` (which can coincide with the sentinel when `i = 97`). -/
theorem C2_amended_locator_range (p s : List Char) (hp : p ∈ udarray)
    (hs : s.length = 100) :
    (3 ≤ myfind p s ∧ myfind p s ≤ 100)
    ∧ (¬ occursIn p s → myfind p s = RANDNUMTABLELEN)
    ∧ (∀ i, matchesAt p (List.drop i s) = true →
        (∀ j, j < i → matchesAt p (List.drop j s) = false) →
        myfind p s = i + 3) := by
  have hp3 := length_of_mem_udarray p hp
  refine ⟨⟨three_le_myfind p s, myfind_le hp3 (by omega)⟩, ?_, ?_⟩
  · exact myfind_of_not_occurs
  · intro i hm hleast
    exact myfind_of_first hm hleast

/-- C2 witness: the amended range bound, instantiated at pattern "DDU"
and the all-'U' length-100 sequence. -/
theorem C2_witness : 3 ≤ myfind pDDU seqAllU ∧ myfind pDDU seqAllU ≤ 100 :=
  (C2_amended_locator_range pDDU seqAllU (by decide) (by decide)).1

/-- C3: for every pair of `cbarray` and every sequence, the win pass
records exactly the strict comparison of the two locator results; ties
(including both patterns absent) record `false`; `win(A,B)` and
`win(B,A)` are never both `true`. -/
theorem C3_win_iff_strictly_earlier (s A B : List Char) (h : (A, B) ∈ cbarray) :
    olookup (winPass s) (A, B) = some (decide (myfind A s < myfind B s))
    ∧ (myfind A s = myfind B s → olookup (winPass s) (A, B) = some false)
    ∧ ¬ (olookup (winPass s) (A, B) = some true
          ∧ olookup (winPass s) (B, A) = some true) := by
  have h1 := olookup_winPass s h
  have h2 := olookup_winPass s (swap_mem_cbarray (A, B) h)
  refine ⟨h1, ?_, ?_⟩
  · intro heq
    rw [h1, heq]
    simp
  · rintro ⟨hab, hba⟩
    rw [h1] at hab
    rw [h2] at hba
    have hab' : myfind A s < myfind B s := of_decide_eq_true (Option.some.inj hab)
    have hba' : myfind B s < myfind A s := of_decide_eq_true (Option.some.inj hba)
    omega

/-- C3 witness: the recorded outcome for ("DDD", "DDU") on the all-'U'
sequence is the strict comparison of the two locator results. -/
theorem C3_witness :
    olookup (winPass seqAllU) (pDDD, pDDU)
      = some (decide (myfind pDDD seqAllU < myfind pDDU seqAllU)) :=
  (C3_win_iff_strictly_earlier seqAllU pDDD pDDU (by decide)).1

/-- C7: for every random source whose draws lie in 1..6, the generator
returns a string of exactly `RANDNUMTABLELEN` symbols, each 'U' or 'D',
the i-th symbol being 'U' exactly when the draw at position i of the
source's stream exceeds 3; the output is fully determined by the
source's state, and the only effect on the source is advancing its
state by `RANDNUMTABLELEN`. -/
theorem C7_generator_spec (mr : MyRand)
    (_h : ∀ i, 1 ≤ mr.draws i ∧ mr.draws i ≤ 6) :
    (makerandomudstr mr).1.length = RANDNUMTABLELEN
    ∧ (∀ c ∈ (makerandomudstr mr).1, c = 'U' ∨ c = 'D')
    ∧ (makerandomudstr mr).1
        = (List.range' mr.state RANDNUMTABLELEN).map
            (fun i => if mr.draws i > 3 then 'U' else 'D')
    ∧ (makerandomudstr mr).2 = ⟨mr.draws, mr.state + RANDNUMTABLELEN⟩ := by
  refine ⟨makerandomudstr_length mr, ?_, ?_, ?_⟩
  · intro c hc
    rw [makerandomudstr_spec] at hc
    simp only at hc
    rcases List.mem_map.mp hc with ⟨i, _, rfl⟩
    by_cases hd : mr.draws i > 3
    · left; simp [hd]
    · right; simp [hd]
  · rw [makerandomudstr_spec]
  · rw [makerandomudstr_spec]

/-- C7 witness: the length property for the source that always draws 6
from state 0. -/
theorem C7_witness :
    (makerandomudstr ⟨fun _ => 6, 0⟩).1.length = RANDNUMTABLELEN :=
  (C7_generator_spec ⟨fun _ => 6, 0⟩
    (fun _ => ⟨by show (1:Nat) ≤ 6; decide, by show (6:Nat) ≤ 6; decide⟩)).1

/-- C1 counterexample: with the random source whose first 100 draws are
low and whose next 100 draws are high, the trial's expectation result
records positions 3 for "DDD" and 100 for "UUU" (i.e. locate(DDD) <
locate(UUU)), yet the same trial's win result does not record a win for
("DDD","UUU") — because the win pass regenerated the sequence. -/
theorem C1_counterexample :
    olookup (montecarloTrial mr0).1 pDDD = some 3
    ∧ olookup (montecarloTrial mr0).1 pUUU = some 100
    ∧ (3 : Nat) < 100
    ∧ olookup (montecarloTrial mr0).2 (pDDD, pUUU) ≠ some true :=
  ⟨by decide, by decide, by decide, by decide⟩

/-- C1 (amended): within one trial of `montecarloTBB`, the expectation
pass and the win pass each generate their own sequence from the trial's
random source: the expectation pass uses the first generated string and
the win pass uses the string generated from the advanced source, so the
win outcomes are the strict locator comparisons on the win pass's own
(second) sequence rather than on the sequence of the recorded
expectation positions. -/
theorem C1_amended_two_sequences (mr : MyRand) :
    (montecarloTrial mr).1 = avgPass (makerandomudstr mr).1
    ∧ (montecarloTrial mr).2
        = winPass (makerandomudstr (makerandomudstr mr).2).1 :=
  ⟨rfl, rfl⟩

/-- C6: the expectation aggregator maps every pattern of the 8-pattern
set to the sum, over all trial results, of the position that trial
recorded for the pattern. -/
theorem C6_sum_expectation (rs : List (List (List Char × Nat)))
    (hr : ∀ r ∈ rs, ∃ s : List Char, r = avgPass s) :
    sumMontecarloAvg rs
      = udarray.map (fun p => (p, (rs.map (fun r => glookup r p)).sum)) :=
  sumMontecarloAvg_eq rs hr

/-- C6 witness: the aggregator applied to the one-trial collection of
the all-'U' sequence. -/
theorem C6_witness :
    sumMontecarloAvg [avgPass seqAllU]
      = udarray.map (fun p =>
          (p, ([avgPass seqAllU].map (fun r => glookup r p)).sum)) :=
  C6_sum_expectation [avgPass seqAllU]
    (fun _ hr => ⟨seqAllU, List.mem_singleton.mp hr⟩)

/-- C4: the win-rate aggregator returns a mapping whose key list is
exactly the 56 pairs of `cbarray` (all pre-registered, so pairs that
never win are present with count 0), and whose value for each pair is
the number of trial results that recorded `true` for that pair. -/
theorem C4_aggregate_win_counts (rs : List (List ((List Char × List Char) × Bool)))
    (hr : ∀ r ∈ rs, ∃ s : List Char, r = winPass s) :
    (aggregateWinningAvg rs).map Prod.fst = cbarray
    ∧ aggregateWinningAvg rs
        = cbarray.map (fun sp =>
            (sp, rs.countP (fun r => decide (olookup r sp = some true)))) := by
  have h := aggregateWinningAvg_eq rs hr
  refine ⟨?_, h⟩
  rw [h]
  simp [Function.comp_def]

/-- C4 witness: the aggregator's key list on a one-trial collection is
the 56-pair table. -/
theorem C4_witness :
    (aggregateWinningAvg [winPass seqAllU]).map Prod.fst = cbarray :=
  (C4_aggregate_win_counts [winPass seqAllU]
    (fun _ hr => ⟨seqAllU, List.mem_singleton.mp hr⟩)).1

/-- C8: for every batch of sequences and every pair (A, B) of
`cbarray`, the aggregate count for (A, B) plus the aggregate count for
(B, A) is at most the number of trials, with equality exactly when no
trial ties the two patterns (both absent counts as a tie at the
sentinel). -/
theorem C8_pair_counts_bound (ss : List (List Char)) (A B : List Char)
    (h : (A, B) ∈ cbarray) :
    glookup (aggregateWinningAvg (ss.map winPass)) (A, B)
      + glookup (aggregateWinningAvg (ss.map winPass)) (B, A) ≤ ss.length
    ∧ (glookup (aggregateWinningAvg (ss.map winPass)) (A, B)
        + glookup (aggregateWinningAvg (ss.map winPass)) (B, A) = ss.length
       ↔ ∀ s ∈ ss, myfind A s ≠ myfind B s) := by
  have hBA := swap_mem_cbarray (A, B) h
  rw [glookup_aggregateWinningAvg ss h, glookup_aggregateWinningAvg ss hBA]
  have hexcl : ∀ s ∈ ss,
      ¬(decide (myfind A s < myfind B s) = true
        ∧ decide (myfind B s < myfind A s) = true) := by
    rintro s _ ⟨h1, h2⟩
    have hl1 := of_decide_eq_true h1
    have hl2 := of_decide_eq_true h2
    omega
  obtain ⟨hle, hiff⟩ := countP_add_le ss _ _ hexcl
  refine ⟨hle, hiff.trans ?_⟩
  constructor
  · intro hall s hs
    rcases hall s hs with h1 | h1
    · have := of_decide_eq_true h1; omega
    · have := of_decide_eq_true h1; omega
  · intro hall s hs
    have hne := hall s hs
    rcases Nat.lt_or_ge (myfind A s) (myfind B s) with hl | hg
    · exact Or.inl (decide_eq_true hl)
    · have hgt : myfind B s < myfind A s := by omega
      exact Or.inr (decide_eq_true hgt)

/-- C8 witness: the bound for the pair ("DDD", "DDU") on the one-trial
batch of the all-'U' sequence. -/
theorem C8_witness :
    glookup (aggregateWinningAvg ([seqAllU].map winPass)) (pDDD, pDDU)
      + glookup (aggregateWinningAvg ([seqAllU].map winPass)) (pDDU, pDDD)
      ≤ [seqAllU].length :=
  (C8_pair_counts_bound [seqAllU] pDDD pDDU (by decide)).1

/-- C10: for every batch of at most `MCMAX` length-100 sequences, every
per-pattern sum is at most 10^8 and every per-pair win count is at most
10^6, and the `std::uint32_t` (mod 2^32) accumulations of both
aggregators coincide with the exact mathematical sums — no wraparound
occurs. -/
theorem C10_no_uint32_overflow (ss : List (List Char))
    (hn : ss.length ≤ MCMAX) (hs : ∀ s ∈ ss, s.length = 100) :
    (∀ kv ∈ sumMontecarloAvg (ss.map avgPass), kv.2 ≤ 100000000)
    ∧ (∀ kv ∈ aggregateWinningAvg (ss.map winPass), kv.2 ≤ 1000000)
    ∧ sumMontecarloAvg32 (ss.map avgPass) = sumMontecarloAvg (ss.map avgPass)
    ∧ aggregateWinningAvg32 (ss.map winPass)
        = aggregateWinningAvg (ss.map winPass) := by
  have hn' : ss.length ≤ 1000000 := hn
  have hravg : ∀ r ∈ ss.map avgPass, ∃ s : List Char, r = avgPass s := by
    intro r hr
    rcases List.mem_map.mp hr with ⟨s, _, rfl⟩
    exact ⟨s, rfl⟩
  have hrwin : ∀ r ∈ ss.map winPass, ∃ s : List Char, r = winPass s := by
    intro r hr
    rcases List.mem_map.mp hr with ⟨s, _, rfl⟩
    exact ⟨s, rfl⟩
  have havgval : ∀ s ∈ ss, ∀ kv ∈ avgPass s, kv.2 ≤ 100 := by
    intro s hsmem kv hkv
    rcases List.mem_map.mp hkv with ⟨p, hpmem, rfl⟩
    exact myfind_le (length_of_mem_udarray p hpmem) (by rw [hs s hsmem])
  refine ⟨?_, ?_, ?_, ?_⟩
  · rw [sumMontecarloAvg_eq _ hravg]
    intro kv hkv
    rcases List.mem_map.mp hkv with ⟨p, hpmem, rfl⟩
    simp only [List.map_map]
    have hb := sum_map_le ss (fun s => glookup (avgPass s) p) 100
      (fun s hsmem => by
        show glookup (avgPass s) p ≤ 100
        rw [glookup_avgPass s hpmem]
        exact myfind_le (length_of_mem_udarray p hpmem) (by rw [hs s hsmem]))
    have hmul : ss.length * 100 ≤ 100000000 := by
      calc ss.length * 100 ≤ 1000000 * 100 := Nat.mul_le_mul_right 100 hn'
      _ = 100000000 := by norm_num
    exact Nat.le_trans hb hmul
  · rw [aggregateWinningAvg_eq _ hrwin]
    intro kv hkv
    rcases List.mem_map.mp hkv with ⟨sp, hspmem, rfl⟩
    have := List.countP_le_length
      (p := fun r => decide (olookup r sp = some true)) (l := ss.map winPass)
    simp only [List.length_map] at this
    omega
  · unfold sumMontecarloAvg32 sumMontecarloAvg
    apply outerAdd32_eq (ss.map avgPass) _ 0 100 8 (allLe_init udarray)
    · intro r hr
      rcases List.mem_map.mp hr with ⟨s, hsmem, rfl⟩
      refine ⟨havgval s hsmem, ?_⟩
      simp [avgPass, udarray]
    · have : ss.length * 800 ≤ 800000000 := by
        calc ss.length * 800 ≤ 1000000 * 800 := Nat.mul_le_mul_right 800 hn'
        _ = 800000000 := by norm_num
      simp only [List.length_map]
      omega
  · unfold aggregateWinningAvg32 aggregateWinningAvg
    apply outerWin32_eq (ss.map winPass) _ 0 56 (allLe_init cbarray)
    · intro r hr
      rcases List.mem_map.mp hr with ⟨s, _, rfl⟩
      have : (winPass s).length = 56 := by
        simp only [winPass, List.length_map]
        decide
      omega
    · have : ss.length * 56 ≤ 56000000 := by
        calc ss.length * 56 ≤ 1000000 * 56 := Nat.mul_le_mul_right 56 hn'
        _ = 56000000 := by norm_num
      simp only [List.length_map]
      omega

/-- C10 witness: the 32-bit and exact expectation sums coincide on the
one-trial batch of the all-'U' sequence. -/
theorem C10_witness :
    sumMontecarloAvg32 ([seqAllU].map avgPass)
      = sumMontecarloAvg ([seqAllU].map avgPass) :=
  (C10_no_uint32_overflow [seqAllU] (by decide)
    (fun s hs => by rw [List.mem_singleton.mp hs]; decide)).2.2.1

end KakeguruiMC
